import Mathlib

/-
Verification of the Attraction Grouping and Day-Allocation Engine of the
AndalusiaTrip repository (src/compound_attractions_handler.py).

The source operates on Python dicts and a module-level JSON configuration.
The configuration data file (compound_attractions.json) is not part of the
repository sources, so each engine function is parameterised here by the
city's list of compound groups (the value `get_compound_groups(city)`
computes in the source) or by the city's neighborhood map; quantifying over
those parameters quantifies over every possible city and configuration.
Python `int` day counts are modelled by `Nat`: `range(n)` for `n <= 0` is
empty exactly as for `n = 0`.  Fallible code (Python's `min()` raising
`ValueError` on an empty sequence) is modelled with `Except String`.
-/

set_option linter.unusedVariables false

namespace AndalusiaTrip

/-- A point of interest.  In the source a POI is a dict with at least a
`name` key; every other field passes through the engine untouched and is
modelled by an uninterpreted `payload`. -/
structure POI where
  name : String
  payload : Nat
deriving DecidableEq, Repr

/-- A compound attraction group, exactly the dict built by
`get_compound_groups` (src/compound_attractions_handler.py lines 68-76):
name, core attraction, included attractions, excluded attractions,
must-group flag, visit duration and neighborhood tag. -/
structure CompoundGroup where
  name : String
  core : Option String
  attractions : List String
  excluded : List String
  must_group : Bool
  visit_duration : Nat
  neighborhood : String
deriving DecidableEq, Repr

/-- One raw configuration entry for a city, mirroring the JSON fields read
by `get_compound_groups` (lines 66-76); every field may be absent. -/
structure RawGroupConfig where
  included_attractions : Option (List String)
  core_attraction : Option String
  excluded_attractions : Option (List String)
  must_visit_together : Option Bool
  visit_duration_hours : Option Nat
  neighborhood : Option String
deriving DecidableEq, Repr

/-- Model of `get_compound_groups` (lines 41-78): keep every config entry that has an
`included_attractions` field, defaulting `excluded_attractions` to `[]`,
`must_visit_together` to `false`, `visit_duration_hours` to `2` and
`neighborhood` to `""`.  A city absent from the configuration is the empty
entry list. -/
def get_compound_groups (cityConfig : List (String × RawGroupConfig)) :
    List CompoundGroup :=
  cityConfig.foldl (fun acc entry =>
    match entry.2.included_attractions with
    | some attrs =>
        acc ++ [⟨entry.1, entry.2.core_attraction, attrs,
                 entry.2.excluded_attractions.getD [],
                 entry.2.must_visit_together.getD false,
                 entry.2.visit_duration_hours.getD 2,
                 entry.2.neighborhood.getD ""⟩]
    | none => acc) []

/-- Test that `needle` occurs at the head of `hay` (character-by-character match). -/
def charsMatch : List Char → List Char → Bool
  | [], _ => true
  | _ :: _, [] => false
  | a :: as, b :: bs => a == b && charsMatch as bs

/-- Test that `needle` occurs contiguously somewhere in `hay`, like Python's
`needle in hay` on strings. -/
def charsSub (needle : List Char) : List Char → Bool
  | [] => charsMatch needle []
  | c :: rest => charsMatch needle (c :: rest) || charsSub needle rest

/-- The character list of `s` lower-cased, like Python's `s.lower()` on the
ASCII names used by the configuration. -/
def lowerChars (s : String) : List Char :=
  s.data.map Char.toLower

/-- Python's `needle.lower() in hay.lower()` substring test. -/
def pySubstr (needle hay : String) : Bool :=
  charsSub (lowerChars needle) (lowerChars hay)

/-- Model of `find_compound_group` (lines 81-104): walk the city's groups in declared
order; for each group first test exact (case-sensitive) membership of
`poi_name` in its attractions, then case-insensitive substring containment
in both directions against each attraction; return the first group that
passes either test. -/
def find_compound_group (poi_name : String) : List CompoundGroup → Option CompoundGroup
  | [] => none
  | g :: rest =>
    if g.attractions.contains poi_name then some g
    else if g.attractions.any (fun a => pySubstr a poi_name || pySubstr poi_name a) then
      some g
    else find_compound_group poi_name rest

/-- Result of `group_pois_by_compound`: the insertion-ordered map from
group name to that group's POIs, and the standalone POIs, both in first
encounter order. -/
structure GroupedData where
  grouped : List (String × List POI)
  standalone : List POI
deriving DecidableEq, Repr

/-- Append `p` to the bucket keyed `k`, creating the bucket at the end when
the key is new — Python dict insertion-order semantics (lines 129-132). -/
def insertGrouped : List (String × List POI) → String → POI → List (String × List POI)
  | [], k, p => [(k, [p])]
  | (k', ps) :: rest, k, p =>
    if k' == k then (k', ps ++ [p]) :: rest
    else (k', ps) :: insertGrouped rest k p

/-- One loop iteration of `group_pois_by_compound` (lines 124-134): a POI
matched to a `must_group` group joins that group's bucket, every other POI
is standalone. -/
def classifyPoi (groups : List CompoundGroup) (acc : GroupedData) (poi : POI) :
    GroupedData :=
  match find_compound_group poi.name groups with
  | some g =>
      if g.must_group then { acc with grouped := insertGrouped acc.grouped g.name poi }
      else { acc with standalone := acc.standalone ++ [poi] }
  | none => { acc with standalone := acc.standalone ++ [poi] }

/-- Model of `group_pois_by_compound` (lines 107-139). -/
def group_pois_by_compound (groups : List CompoundGroup) (pois : List POI) :
    GroupedData :=
  pois.foldl (classifyPoi groups) ⟨[], []⟩

/-- Inner completion loop of `ensure_compound_integrity` (lines 170-180):
for each attraction name, when no currently selected POI carries it, append
the first available POI with that name (if any). -/
def completeGroup (available : List POI) (attrs : List String) (sel : List POI) :
    List POI :=
  attrs.foldl (fun sel' aname =>
    if sel'.any (fun p => p.name == aname) then sel'
    else
      match available.find? (fun p => p.name == aname) with
      | some poi => sel' ++ [poi]
      | none => sel') sel

/-- A POI of `sel` is an exact member of `g` (the trigger test of lines
162-165). -/
def triggered (g : CompoundGroup) (sel : List POI) : Bool :=
  sel.any (fun p => g.attractions.contains p.name)

/-- One outer loop iteration of `ensure_compound_integrity` (lines 157-180):
skip non-must groups, complete a triggered group from the available pool. -/
def integrityStep (available : List POI) (sel : List POI) (g : CompoundGroup) :
    List POI :=
  if !g.must_group then sel
  else if triggered g sel then completeGroup available g.attractions sel
  else sel

/-- Model of `ensure_compound_integrity` (lines 142-182), with the city's group list
in place of the city name. -/
def ensure_compound_integrity (selected available : List POI)
    (groups : List CompoundGroup) : List POI :=
  groups.foldl (integrityStep available) selected

/-- The allocator state: the day lists and the running day counts
(lines 203-204). -/
structure AllocState where
  days : List (List POI)
  day_counts : List Nat
deriving DecidableEq, Repr

/-- Tail of Python's `min(range(n), key=lambda i: day_counts[i])`: scan the
remaining counts, replacing the current best only on a strictly smaller
value, so ties keep the lowest index. -/
def minIdxAux : List Nat → Nat → Nat → Nat → Nat
  | [], best, _, _ => best
  | c :: rest, best, bestVal, i =>
    if c < bestVal then minIdxAux rest i c (i + 1)
    else minIdxAux rest best bestVal (i + 1)

/-- Model of `min(range(num_days), key=lambda i: day_counts[i])` (lines 209
and 220);
Python raises `ValueError` on an empty range, modelled as `none`. -/
def minIdx : List Nat → Option Nat
  | [] => none
  | c :: rest => some (minIdxAux rest 0 c 1)

/-- Step 1 body of `split_pois_into_days` (lines 207-215): extend the least
loaded day by an entire group bucket. -/
def placeGroup (st : AllocState) (group_pois : List POI) : Except String AllocState :=
  match minIdx st.day_counts with
  | none => Except.error "min() arg is an empty sequence"
  | some i =>
      Except.ok ⟨st.days.set i (st.days.getD i [] ++ group_pois),
                 st.day_counts.set i (st.day_counts.getD i 0 + group_pois.length)⟩

/-- Step 2 body of `split_pois_into_days` (lines 218-223): append one
standalone POI to the least loaded day. -/
def placeOne (st : AllocState) (poi : POI) : Except String AllocState :=
  match minIdx st.day_counts with
  | none => Except.error "min() arg is an empty sequence"
  | some i =>
      Except.ok ⟨st.days.set i (st.days.getD i [] ++ [poi]),
                 st.day_counts.set i (st.day_counts.getD i 0 + 1)⟩

/-- Left fold that stops at the first error, the shape of the two
sequential loops of `split_pois_into_days`. -/
def foldE {σ α : Type} (f : σ → α → Except String σ) : σ → List α → Except String σ
  | s, [] => Except.ok s
  | s, a :: as =>
    match f s a with
    | Except.ok s' => foldE f s' as
    | Except.error e => Except.error e

/-- Model of `split_pois_into_days` (lines 185-228): partition the POIs by compound,
place each group bucket wholly on the least loaded day, then distribute the
standalone POIs one by one; `quota_per_day` is accepted but never read. -/
def split_pois_into_days (groups : List CompoundGroup) (all_pois : List POI)
    (num_days : Nat) (quota_per_day : Nat) : Except String (List (List POI)) :=
  match foldE (fun st entry => placeGroup st entry.2)
      ⟨List.replicate num_days [], List.replicate num_days 0⟩
      (group_pois_by_compound groups all_pois).grouped with
  | Except.error e => Except.error e
  | Except.ok st1 =>
    match foldE placeOne st1 (group_pois_by_compound groups all_pois).standalone with
    | Except.error e => Except.error e
    | Except.ok st2 => Except.ok st2.days

/-- One neighborhood bucket of `suggest_poi_order_by_neighborhood`: the
neighborhood name, its declared attraction names, and the POIs collected so
far (lines 260-271). -/
structure NbBucket where
  nbName : String
  attractions : List String
  collected : List POI
deriving DecidableEq, Repr

/-- Put `p` into the first bucket whose attraction list contains its name
(lines 267-271); `none` when no bucket matches. -/
def placeInBuckets (p : POI) : List NbBucket → Option (List NbBucket)
  | [] => none
  | b :: rest =>
    if b.attractions.contains p.name then
      some ({ b with collected := b.collected ++ [p] } :: rest)
    else
      match placeInBuckets p rest with
      | some rest' => some (b :: rest')
      | none => none

/-- One loop iteration of `suggest_poi_order_by_neighborhood` (lines
263-274): a POI goes into its first matching neighborhood bucket, or into
the unmatched list. -/
def nbStep (acc : List NbBucket × List POI) (p : POI) : List NbBucket × List POI :=
  match placeInBuckets p acc.1 with
  | some bks => (bks, acc.2)
  | none => (acc.1, acc.2 ++ [p])

/-- Model of `suggest_poi_order_by_neighborhood` (lines 245-283), with the city's
neighborhood map (name, attraction names) in place of the city name:
collect each POI into its first matching neighborhood bucket or into the
unmatched list, then emit the buckets in declared order followed by the
unmatched POIs. -/
def suggest_poi_order_by_neighborhood (neighborhoods : List (String × List String))
    (pois : List POI) : List POI :=
  let res := pois.foldl nbStep
    (neighborhoods.map (fun na => NbBucket.mk na.1 na.2 []), ([] : List POI))
  (res.1.map NbBucket.collected).flatten ++ res.2

/-! ## Claim C4: matching order -/

/-- The per-group test of `find_compound_group`: exact membership or
case-insensitive bidirectional substring containment. -/
def groupMatchTest (poi_name : String) (g : CompoundGroup) : Bool :=
  g.attractions.contains poi_name ||
    g.attractions.any (fun a => pySubstr a poi_name || pySubstr poi_name a)

/-- C4 (amended): matching is one single pass over the city's groups in
declared order; each group is tested for exact membership and then for
case-insensitive bidirectional substring containment, and the first group
passing either test is returned — an exact match in a later group never
takes priority over a substring match in an earlier group. -/
theorem c4_single_pass (poi_name : String) (gs : List CompoundGroup) :
    find_compound_group poi_name gs = gs.find? (groupMatchTest poi_name) := by
  induction gs with
  | nil => rfl
  | cons g rest ih =>
    by_cases h1 : poi_name ∈ g.attractions
    · simp [find_compound_group, List.find?, groupMatchTest, h1]
    · cases h2 : g.attractions.any (fun a => pySubstr a poi_name || pySubstr poi_name a) with
      | true => simp [find_compound_group, List.find?, groupMatchTest, h1, h2]
      | false => simp [find_compound_group, List.find?, groupMatchTest, h1, h2, ih]

/-- First counterexample group: no exact match for "Alhambra", but a
substring match. -/
def alG1 : CompoundGroup := ⟨"g1", none, ["Alhambra Palace"], [], true, 2, ""⟩

/-- Second counterexample group: an exact match for "Alhambra". -/
def alG2 : CompoundGroup := ⟨"g2", none, ["Alhambra"], [], true, 2, ""⟩

/-- C4 as frozen is false: `alG2` is the only group containing "Alhambra"
exactly, yet `find_compound_group` returns `alG1`, whose earlier substring
match wins over the later exact match. -/
theorem c4_counterexample :
    ("Alhambra" ∈ alG2.attractions) ∧ ("Alhambra" ∉ alG1.attractions) ∧
    find_compound_group "Alhambra" [alG1, alG2] = some alG1 ∧
    find_compound_group "Alhambra" [alG1, alG2] ≠ some alG2 := by
  refine ⟨by decide, by decide, rfl, ?_⟩
  intro h
  exact absurd (Option.some.inj h) (by decide)

/-! ## Claim C3: missing num_days guard -/

/-- C3 evaluated on the code: `split_pois_into_days` has no `num_days < 1`
guard.  With `num_days = 0` and an empty POI list it returns a result, and
with a nonempty POI list it fails with the generic Python `ValueError`
message of `min()` on an empty sequence — in neither case an explicit
descriptive invalid-argument error. -/
theorem c3_no_guard :
    split_pois_into_days [] [] 0 5 = Except.ok [] ∧
    split_pois_into_days [] [⟨"X", 0⟩] 0 5 =
      Except.error "min() arg is an empty sequence" :=
  ⟨rfl, rfl⟩

/-! ## Claim C7: quota noninterference -/

/-- C7: the `quota_per_day` argument is never read, so two calls differing
only in the quota return identical day partitions. -/
theorem c7_quota_noninterference (groups : List CompoundGroup) (pois : List POI)
    (n q1 q2 : Nat) (h : 1 ≤ n) :
    split_pois_into_days groups pois n q1 = split_pois_into_days groups pois n q2 :=
  rfl

/-- Witness for C7 at a concrete input. -/
theorem c7_quota_witness :
    1 ≤ 2 ∧ split_pois_into_days [] [⟨"X", 0⟩] 2 3 =
      split_pois_into_days [] [⟨"X", 0⟩] 2 9 :=
  ⟨by decide, c7_quota_noninterference [] [⟨"X", 0⟩] 2 3 9 (by decide)⟩

/-! ## Claim C6: scenario B -/

/-- C6: whenever the grouping phase yields exactly one must-group bucket of
three POIs and four standalone POIs, with `num_days = 3` the whole bucket
lands on day 0 and the standalone POIs go to days 1, 2, 1, 2 in input
order, so the day counts end at 3, 2, 2. -/
theorem c6_scenario_b (groups : List CompoundGroup) (pois : List POI)
    (q : Nat) (k : String) (p1 p2 p3 s1 s2 s3 s4 : POI)
    (h : group_pois_by_compound groups pois = ⟨[(k, [p1, p2, p3])], [s1, s2, s3, s4]⟩) :
    split_pois_into_days groups pois 3 q =
      Except.ok [[p1, p2, p3], [s1, s3], [s2, s4]] := by
  simp only [split_pois_into_days, h]
  rfl

/-- Witness for C6 at the concrete scenario-B input. -/
theorem c6_scenario_b_witness :
    split_pois_into_days [⟨"G", none, ["A", "B", "C"], [], true, 2, ""⟩]
      [⟨"A", 0⟩, ⟨"B", 1⟩, ⟨"C", 2⟩, ⟨"S1", 3⟩, ⟨"S2", 4⟩, ⟨"S3", 5⟩, ⟨"S4", 6⟩] 3 5 =
      Except.ok [[⟨"A", 0⟩, ⟨"B", 1⟩, ⟨"C", 2⟩], [⟨"S1", 3⟩, ⟨"S3", 5⟩],
                 [⟨"S2", 4⟩, ⟨"S4", 6⟩]] :=
  c6_scenario_b _ _ 5 "G" _ _ _ _ _ _ _ rfl

/-! ## Conservation machinery (C2) -/

theorem getD_set_self {α : Type} (l : List α) (i : Nat) (x d : α) (h : i < l.length) :
    (l.set i x).getD i d = x := by
  simp [List.getD_eq_getElem?_getD, List.getElem?_set_self h]

theorem getD_set_ne {α : Type} (l : List α) (i j : Nat) (x d : α) (h : i ≠ j) :
    (l.set i x).getD j d = l.getD j d := by
  simp [List.getD_eq_getElem?_getD, List.getElem?_set_ne h]

/-- Extending one list of a list-of-lists extends the flattening, up to
permutation. -/
theorem flatten_set_append {α : Type} (l : List (List α)) (i : Nat) (xs : List α)
    (h : i < l.length) :
    ((l.set i (l.getD i [] ++ xs)).flatten).Perm (l.flatten ++ xs) := by
  induction l generalizing i with
  | nil => simp at h
  | cons a t ih =>
    cases i with
    | zero =>
      have hd : (a :: t).getD 0 [] = a := rfl
      rw [hd, List.set_cons_zero, List.flatten_cons, List.flatten_cons,
        List.append_assoc, List.append_assoc]
      exact List.Perm.append_left a List.perm_append_comm
    | succ i' =>
      have hlt : i' < t.length := by simpa using h
      have hd : (a :: t).getD (i' + 1) [] = t.getD i' [] := rfl
      rw [hd, List.set_cons_succ, List.flatten_cons, List.flatten_cons,
        List.append_assoc]
      exact List.Perm.append_left a (ih i' hlt)

/-- The allocator state is well formed: day list and count list have the
same, positive, length. -/
def stOk (st : AllocState) : Prop :=
  st.days.length = st.day_counts.length ∧ 0 < st.day_counts.length

theorem minIdxAux_lt (l : List Nat) : ∀ (best bestVal i : Nat), best < i →
    minIdxAux l best bestVal i < i + l.length := by
  induction l with
  | nil =>
    intro best bestVal i h
    simpa [minIdxAux] using h
  | cons c rest ih =>
    intro best bestVal i h
    simp only [minIdxAux]
    split
    · have := ih i c (i + 1) (Nat.lt_succ_self i)
      simp only [List.length_cons]
      omega
    · have := ih best bestVal (i + 1) (Nat.lt_succ_of_lt h)
      simp only [List.length_cons]
      omega

theorem minIdx_lt (l : List Nat) (i : Nat) (h : minIdx l = some i) : i < l.length := by
  cases l with
  | nil => simp [minIdx] at h
  | cons c rest =>
    simp only [minIdx, Option.some.injEq] at h
    subst h
    have := minIdxAux_lt rest 0 c 1 Nat.zero_lt_one
    simpa [Nat.add_comm] using this

theorem minIdx_isSome (l : List Nat) (h : 0 < l.length) : ∃ i, minIdx l = some i := by
  cases l with
  | nil => simp at h
  | cons c rest => exact ⟨_, rfl⟩

/-- On a well-formed state `placeGroup` succeeds, preserves well-formedness
and extends the flattened day lists by exactly the placed bucket. -/
theorem placeGroup_ok (st : AllocState) (ps : List POI) (h : stOk st) :
    ∃ st', placeGroup st ps = Except.ok st' ∧ stOk st' ∧
      (st'.days.flatten).Perm (st.days.flatten ++ ps) := by
  obtain ⟨hlen, hpos⟩ := h
  obtain ⟨i, hi⟩ := minIdx_isSome st.day_counts hpos
  have hilt : i < st.day_counts.length := minIdx_lt _ _ hi
  refine ⟨⟨st.days.set i (st.days.getD i [] ++ ps),
           st.day_counts.set i (st.day_counts.getD i 0 + ps.length)⟩, ?_, ?_, ?_⟩
  · simp [placeGroup, hi]
  · exact ⟨by simp [hlen], by simpa using hpos⟩
  · exact flatten_set_append st.days i ps (by rw [hlen]; exact hilt)

theorem placeOne_eq_placeGroup (st : AllocState) (p : POI) :
    placeOne st p = placeGroup st [p] := rfl

/-- Error-propagating fold: when every step succeeds on well-formed states
and extends the flattened days by `g a`, the whole fold succeeds and
extends them by the concatenation. -/
theorem foldE_ok {α : Type} (f : AllocState → α → Except String AllocState)
    (g : α → List POI)
    (hf : ∀ st a, stOk st → ∃ st', f st a = Except.ok st' ∧ stOk st' ∧
        (st'.days.flatten).Perm (st.days.flatten ++ g a)) :
    ∀ (l : List α) (st : AllocState), stOk st →
      ∃ st', foldE f st l = Except.ok st' ∧ stOk st' ∧
        (st'.days.flatten).Perm (st.days.flatten ++ (l.map g).flatten) := by
  intro l
  induction l with
  | nil =>
    intro st h
    exact ⟨st, rfl, h, by simp⟩
  | cons a as ih =>
    intro st h
    obtain ⟨st1, hf1, hok1, hperm1⟩ := hf st a h
    obtain ⟨st', hf2, hok2, hperm2⟩ := ih st1 hok1
    refine ⟨st', by simp [foldE, hf1, hf2], hok2, ?_⟩
    refine hperm2.trans ((hperm1.append_right _).trans ?_)
    rw [List.map_cons, List.flatten_cons, ← List.append_assoc]

/-- The POIs stored in the grouped buckets, in bucket order. -/
def bucketsFlatten (m : List (String × List POI)) : List POI :=
  (m.map Prod.snd).flatten

theorem insertGrouped_perm (m : List (String × List POI)) (k : String) (p : POI) :
    (bucketsFlatten (insertGrouped m k p)).Perm (bucketsFlatten m ++ [p]) := by
  induction m with
  | nil => simp [insertGrouped, bucketsFlatten]
  | cons kv rest ih =>
    obtain ⟨k', ps⟩ := kv
    by_cases hk : (k' == k) = true
    · simp only [insertGrouped, if_pos hk, bucketsFlatten, List.map_cons,
        List.flatten_cons, List.append_assoc]
      exact List.Perm.append_left ps List.perm_append_comm
    · simp only [insertGrouped, if_neg hk, bucketsFlatten, List.map_cons,
        List.flatten_cons, List.append_assoc]
      exact List.Perm.append_left ps ih

/-- The multiset content of a `GroupedData`: bucket POIs then standalone
POIs. -/
def gpcMeasure (d : GroupedData) : List POI :=
  bucketsFlatten d.grouped ++ d.standalone

theorem classifyPoi_perm (groups : List CompoundGroup) (acc : GroupedData) (p : POI) :
    (gpcMeasure (classifyPoi groups acc p)).Perm (gpcMeasure acc ++ [p]) := by
  unfold classifyPoi
  cases hf : find_compound_group p.name groups with
  | none => simp [gpcMeasure, List.append_assoc]
  | some g =>
    by_cases hm : g.must_group = true
    · simp only [hm, if_pos]
      refine ((insertGrouped_perm acc.grouped g.name p).append_right acc.standalone).trans ?_
      simp only [gpcMeasure, List.append_assoc]
      exact List.Perm.append_left _ List.perm_append_comm
    · simp [hm, gpcMeasure, List.append_assoc]

theorem gpc_fold_perm (groups : List CompoundGroup) : ∀ (pois : List POI) (acc : GroupedData),
    (gpcMeasure (pois.foldl (classifyPoi groups) acc)).Perm (gpcMeasure acc ++ pois) := by
  intro pois
  induction pois with
  | nil => intro acc; simp
  | cons p rest ih =>
    intro acc
    have h2 := (classifyPoi_perm groups acc p).append_right rest
    rw [List.append_assoc, List.singleton_append] at h2
    exact (ih (classifyPoi groups acc p)).trans h2

theorem flatten_map_singleton_poi (l : List POI) : (l.map (fun p => [p])).flatten = l := by
  induction l with
  | nil => rfl
  | cons a t ih => simp [ih]

/-- C2, first half: for any city configuration, any POI list and any
`num_days >= 1`, the allocation succeeds and the concatenation of the day
lists is a permutation of the input. -/
theorem split_ok_perm (groups : List CompoundGroup) (pois : List POI) (n q : Nat)
    (h : 1 ≤ n) :
    ∃ days, split_pois_into_days groups pois n q = Except.ok days ∧
      (days.flatten).Perm pois := by
  have hst0 : stOk ⟨List.replicate n [], List.replicate n 0⟩ :=
    ⟨by simp, by simpa using h⟩
  obtain ⟨st1, h1, hok1, hp1⟩ := foldE_ok (fun st entry => placeGroup st entry.2)
    (fun e => e.2) (fun st a hst => placeGroup_ok st a.2 hst)
    (group_pois_by_compound groups pois).grouped _ hst0
  obtain ⟨st2, h2, hok2, hp2⟩ := foldE_ok placeOne (fun p => [p])
    (fun st a hst => by rw [placeOne_eq_placeGroup]; exact placeGroup_ok st [a] hst)
    (group_pois_by_compound groups pois).standalone st1 hok1
  refine ⟨st2.days, by simp [split_pois_into_days, h1, h2], ?_⟩
  rw [flatten_map_singleton_poi] at hp2
  simp only [List.flatten_replicate_nil, List.nil_append] at hp1
  have hb : ((group_pois_by_compound groups pois).grouped.map (fun e => e.2)).flatten
      = bucketsFlatten (group_pois_by_compound groups pois).grouped := rfl
  rw [hb] at hp1
  have hmain : (st2.days.flatten).Perm (gpcMeasure (group_pois_by_compound groups pois)) :=
    hp2.trans (hp1.append_right _)
  have hg := gpc_fold_perm groups pois ⟨[], []⟩
  simp only [gpcMeasure, bucketsFlatten, List.map_nil, List.flatten_nil,
    List.nil_append, List.append_nil] at hg
  exact hmain.trans hg

theorem placeInBuckets_perm (p : POI) : ∀ (bks bks' : List NbBucket),
    placeInBuckets p bks = some bks' →
    ((bks'.map NbBucket.collected).flatten).Perm
      ((bks.map NbBucket.collected).flatten ++ [p]) := by
  intro bks
  induction bks with
  | nil => intro bks' h; simp [placeInBuckets] at h
  | cons b rest ih =>
    intro bks' h
    simp only [placeInBuckets] at h
    by_cases hc : (b.attractions.contains p.name) = true
    · rw [if_pos hc] at h
      cases h
      simp only [List.map_cons, List.flatten_cons, List.append_assoc]
      exact List.Perm.append_left _ List.perm_append_comm
    · rw [if_neg hc] at h
      cases hr : placeInBuckets p rest with
      | none => rw [hr] at h; cases h
      | some rest' =>
        rw [hr] at h
        cases h
        simp only [List.map_cons, List.flatten_cons, List.append_assoc]
        exact List.Perm.append_left _ (ih rest' hr)

/-- The multiset content of the neighborhood fold state. -/
def nbMeasure (acc : List NbBucket × List POI) : List POI :=
  (acc.1.map NbBucket.collected).flatten ++ acc.2

theorem nbStep_perm (acc : List NbBucket × List POI) (p : POI) :
    (nbMeasure (nbStep acc p)).Perm (nbMeasure acc ++ [p]) := by
  unfold nbStep
  cases hr : placeInBuckets p acc.1 with
  | some bks =>
    refine ((placeInBuckets_perm p acc.1 bks hr).append_right acc.2).trans ?_
    simp only [nbMeasure, List.append_assoc]
    exact List.Perm.append_left _ List.perm_append_comm
  | none => simp [nbMeasure, List.append_assoc]

theorem nb_fold_perm : ∀ (pois : List POI) (acc : List NbBucket × List POI),
    (nbMeasure (pois.foldl nbStep acc)).Perm (nbMeasure acc ++ pois) := by
  intro pois
  induction pois with
  | nil => intro acc; simp
  | cons p rest ih =>
    intro acc
    have h2 := (nbStep_perm acc p).append_right rest
    rw [List.append_assoc, List.singleton_append] at h2
    exact (ih (nbStep acc p)).trans h2

theorem nb_init_flatten (nbs : List (String × List String)) :
    ((nbs.map (fun na => NbBucket.mk na.1 na.2 [])).map NbBucket.collected).flatten = [] := by
  induction nbs with
  | nil => rfl
  | cons a t ih => simp [ih]

/-- C2, second half: the neighborhood reordering returns a permutation of
its input. -/
theorem suggest_perm (nbs : List (String × List String)) (pois : List POI) :
    (suggest_poi_order_by_neighborhood nbs pois).Perm pois := by
  have h := nb_fold_perm pois (nbs.map (fun na => NbBucket.mk na.1 na.2 []), ([] : List POI))
  simp only [nbMeasure, nb_init_flatten, List.nil_append, List.append_nil] at h
  exact h

/-- C2: the allocator conserves the POI multiset (for every configuration,
POI list and `num_days >= 1` it succeeds and the concatenated day lists are
a permutation of the input), and the neighborhood ordering returns a
permutation of its input. -/
theorem c2_conservation :
    (∀ (groups : List CompoundGroup) (pois : List POI) (n q : Nat), 1 ≤ n →
      ∃ days, split_pois_into_days groups pois n q = Except.ok days ∧
        (days.flatten).Perm pois) ∧
    (∀ (nbs : List (String × List String)) (pois : List POI),
      (suggest_poi_order_by_neighborhood nbs pois).Perm pois) :=
  ⟨split_ok_perm, suggest_perm⟩

/-- Witness for C2 at concrete inputs. -/
theorem c2_conservation_witness :
    (∃ days, split_pois_into_days [] [⟨"X", 0⟩, ⟨"Y", 1⟩] 2 5 = Except.ok days ∧
      (days.flatten).Perm [⟨"X", 0⟩, ⟨"Y", 1⟩]) ∧
    (suggest_poi_order_by_neighborhood [("n", ["Y"])] [⟨"X", 0⟩, ⟨"Y", 1⟩]).Perm
      [⟨"X", 0⟩, ⟨"Y", 1⟩] :=
  ⟨c2_conservation.1 [] [⟨"X", 0⟩, ⟨"Y", 1⟩] 2 5 (by decide),
   c2_conservation.2 [("n", ["Y"])] [⟨"X", 0⟩, ⟨"Y", 1⟩]⟩

/-! ## Group atomicity machinery (C1) -/

/-- The must-group key the allocator files `p` under: the name of the first
matching group when that group is a must-group, `none` otherwise. -/
def mkeyOf (groups : List CompoundGroup) (p : POI) : Option String :=
  match find_compound_group p.name groups with
  | some g => if g.must_group then some g.name else none
  | none => none

/-- Invariant of the grouping phase: bucket keys are distinct, every POI in
a bucket is filed under exactly that bucket's key, and standalone POIs have
no key. -/
def gpcInv (groups : List CompoundGroup) (d : GroupedData) : Prop :=
  (d.grouped.map Prod.fst).Nodup ∧
  (∀ kps ∈ d.grouped, ∀ q ∈ kps.2, mkeyOf groups q = some kps.1) ∧
  (∀ q ∈ d.standalone, mkeyOf groups q = none)

theorem insertGrouped_keys (k : String) (p : POI) :
    ∀ (m : List (String × List POI)),
    (insertGrouped m k p).map Prod.fst = m.map Prod.fst ∨
    ((insertGrouped m k p).map Prod.fst = m.map Prod.fst ++ [k] ∧ k ∉ m.map Prod.fst) := by
  intro m
  induction m with
  | nil => right; exact ⟨rfl, by simp⟩
  | cons kv rest ih =>
    obtain ⟨k', ps⟩ := kv
    by_cases hk : (k' == k) = true
    · left
      simp [insertGrouped, hk]
    · rcases ih with h | ⟨h, hn⟩
      · left
        simp [insertGrouped, hk, h]
      · right
        refine ⟨by simp [insertGrouped, hk, h], ?_⟩
        simp only [List.map_cons, List.mem_cons]
        rintro (he | he)
        · exact hk (by simp [he])
        · exact hn he

theorem insertGrouped_nodup (m : List (String × List POI)) (k : String) (p : POI)
    (h : (m.map Prod.fst).Nodup) : ((insertGrouped m k p).map Prod.fst).Nodup := by
  rcases insertGrouped_keys k p m with he | ⟨he, hn⟩
  · rw [he]; exact h
  · rw [he]
    simp [List.nodup_append, h, hn]

theorem insertGrouped_mem {P : String → POI → Prop} (k : String) (p : POI) :
    ∀ (m : List (String × List POI)),
    (∀ kps ∈ m, ∀ q ∈ kps.2, P kps.1 q) → P k p →
    ∀ kps ∈ insertGrouped m k p, ∀ q ∈ kps.2, P kps.1 q := by
  intro m
  induction m with
  | nil =>
    intro hm hp kps hmem q hq
    simp only [insertGrouped, List.mem_singleton] at hmem
    subst hmem
    simp only [List.mem_singleton] at hq
    subst hq
    exact hp
  | cons kv rest ih =>
    intro hm hp kps hmem q hq
    obtain ⟨k', ps⟩ := kv
    by_cases hk : (k' == k) = true
    · simp only [insertGrouped, if_pos hk] at hmem
      rcases List.mem_cons.mp hmem with h1 | h1
      · subst h1
        rcases List.mem_append.mp hq with h2 | h2
        · exact hm (k', ps) (List.mem_cons_self _ _) q h2
        · simp only [List.mem_singleton] at h2
          subst h2
          have : k' = k := by simpa using hk
          subst this
          exact hp
      · exact hm kps (List.mem_cons_of_mem _ h1) q hq
    · simp only [insertGrouped, if_neg hk] at hmem
      rcases List.mem_cons.mp hmem with h1 | h1
      · subst h1
        exact hm (k', ps) (List.mem_cons_self _ _) q hq
      · exact ih (fun kps h => hm kps (List.mem_cons_of_mem _ h)) hp kps h1 q hq

theorem classifyPoi_inv (groups : List CompoundGroup) (acc : GroupedData) (p : POI)
    (h : gpcInv groups acc) : gpcInv groups (classifyPoi groups acc p) := by
  obtain ⟨h1, h2, h3⟩ := h
  unfold classifyPoi
  cases hf : find_compound_group p.name groups with
  | none =>
    refine ⟨h1, h2, ?_⟩
    intro q hq
    rcases List.mem_append.mp hq with hql | hqr
    · exact h3 q hql
    · simp only [List.mem_singleton] at hqr
      subst hqr
      simp [mkeyOf, hf]
  | some g =>
    cases hm : g.must_group with
    | true =>
      simp only [hm, if_pos]
      refine ⟨insertGrouped_nodup _ _ _ h1, ?_, h3⟩
      exact insertGrouped_mem (P := fun k q => mkeyOf groups q = some k) g.name p
        acc.grouped h2 (by simp [mkeyOf, hf, hm])
    | false =>
      simp only [hm, Bool.false_eq_true, if_neg, not_false_eq_true]
      refine ⟨h1, h2, ?_⟩
      intro q hq
      rcases List.mem_append.mp hq with hql | hqr
      · exact h3 q hql
      · simp only [List.mem_singleton] at hqr
        subst hqr
        simp [mkeyOf, hf, hm]

theorem gpc_inv (groups : List CompoundGroup) : ∀ (pois : List POI) (acc : GroupedData),
    gpcInv groups acc → gpcInv groups (pois.foldl (classifyPoi groups) acc) := by
  intro pois
  induction pois with
  | nil => intro acc h; exact h
  | cons p rest ih =>
    intro acc h
    exact ih (classifyPoi groups acc p) (classifyPoi_inv groups acc p h)

/-- Membership in a day list after one placement step: the POI was already
on that day, or it belongs to the freshly placed bucket and the day is the
chosen one. -/
theorem mem_getD_set {α : Type} : ∀ (l : List (List α)) (i j : Nat) (xs : List α) (x : α),
    x ∈ (l.set i (l.getD i [] ++ xs)).getD j [] → x ∈ l.getD j [] ∨ (j = i ∧ x ∈ xs) := by
  intro l
  induction l with
  | nil =>
    intro i j xs x h
    simp at h
  | cons a t ih =>
    intro i j xs x h
    cases i with
    | zero =>
      cases j with
      | zero =>
        simp only [List.getD_cons_zero, List.set_cons_zero] at h
        rcases List.mem_append.mp h with h1 | h1
        · exact Or.inl (by simpa using h1)
        · exact Or.inr ⟨rfl, h1⟩
      | succ j' =>
        simp only [List.getD_cons_zero, List.set_cons_zero, List.getD_cons_succ] at h ⊢
        exact Or.inl h
    | succ i' =>
      cases j with
      | zero =>
        simp only [List.set_cons_succ, List.getD_cons_zero] at h ⊢
        exact Or.inl h
      | succ j' =>
        simp only [List.set_cons_succ, List.getD_cons_succ] at h ⊢
        rcases ih i' j' xs x h with h1 | h1
        · exact Or.inl h1
        · exact Or.inr ⟨by rw [h1.1], h1.2⟩

/-- Any two POIs filed under the same must-group key sit on the same day. -/
def sameKeySameDay (groups : List CompoundGroup) (st : AllocState) : Prop :=
  ∀ i j p q k, p ∈ st.days.getD i [] → q ∈ st.days.getD j [] →
    mkeyOf groups p = some k → mkeyOf groups q = some k → i = j

/-- Every POI already on some day is filed under one of the given keys. -/
def daysKeyed (groups : List CompoundGroup) (ks : List String) (st : AllocState) : Prop :=
  ∀ i p, p ∈ st.days.getD i [] → ∃ k ∈ ks, mkeyOf groups p = some k

theorem phase1_atom (groups : List CompoundGroup) :
    ∀ (entries : List (String × List POI)) (st : AllocState) (doneKs : List String),
    (entries.map Prod.fst).Nodup →
    (∀ k ∈ entries.map Prod.fst, k ∉ doneKs) →
    (∀ kps ∈ entries, ∀ q ∈ kps.2, mkeyOf groups q = some kps.1) →
    daysKeyed groups doneKs st →
    sameKeySameDay groups st →
    ∀ st', foldE (fun s e => placeGroup s e.2) st entries = Except.ok st' →
      daysKeyed groups (doneKs ++ entries.map Prod.fst) st' ∧
      sameKeySameDay groups st' := by
  intro entries
  induction entries with
  | nil =>
    intro st doneKs _ _ _ hdk hsk st' hfold
    simp only [foldE, Except.ok.injEq] at hfold
    subst hfold
    exact ⟨by simpa using hdk, hsk⟩
  | cons e rest ih =>
    intro st doneKs hnd hfresh hpure hdk hsk st' hfold
    obtain ⟨k, ps⟩ := e
    simp only [foldE] at hfold
    cases hmi : minIdx st.day_counts with
    | none =>
      rw [show placeGroup st ps = Except.error "min() arg is an empty sequence" from by
        simp [placeGroup, hmi]] at hfold
      cases hfold
    | some i0 =>
      have hpg : placeGroup st ps =
          Except.ok ⟨st.days.set i0 (st.days.getD i0 [] ++ ps),
                     st.day_counts.set i0 (st.day_counts.getD i0 0 + ps.length)⟩ := by
        simp [placeGroup, hmi]
      rw [hpg] at hfold
      have hpure_head : ∀ q ∈ ps, mkeyOf groups q = some k :=
        fun q hq => hpure (k, ps) (List.mem_cons_self _ _) q hq
      have hkfresh : k ∉ doneKs := hfresh k (by simp)
      have hdk1 : daysKeyed groups (doneKs ++ [k])
          ⟨st.days.set i0 (st.days.getD i0 [] ++ ps),
            st.day_counts.set i0 (st.day_counts.getD i0 0 + ps.length)⟩ := by
        intro i p hpm
        rcases mem_getD_set st.days i0 i ps p hpm with hold | ⟨rfl, hin⟩
        · obtain ⟨k', hk', hkey'⟩ := hdk i p hold
          exact ⟨k', by simp [hk'], hkey'⟩
        · exact ⟨k, by simp, hpure_head p hin⟩
      have hsk1 : sameKeySameDay groups
          ⟨st.days.set i0 (st.days.getD i0 [] ++ ps),
            st.day_counts.set i0 (st.day_counts.getD i0 0 + ps.length)⟩ := by
        intro i j p q k0 hpi hqj hkp hkq
        rcases mem_getD_set st.days i0 i ps p hpi with hpo | ⟨hpe, hpn⟩
        · rcases mem_getD_set st.days i0 j ps q hqj with hqo | ⟨hqe, hqn⟩
          · exact hsk i j p q k0 hpo hqo hkp hkq
          · obtain ⟨k', hk', hkey'⟩ := hdk i p hpo
            rw [hkey'] at hkp
            have hqk : mkeyOf groups q = some k := hpure_head q hqn
            rw [hqk] at hkq
            cases hkp
            cases hkq
            exact absurd hk' hkfresh
        · rcases mem_getD_set st.days i0 j ps q hqj with hqo | ⟨hqe, hqn⟩
          · obtain ⟨k', hk', hkey'⟩ := hdk j q hqo
            rw [hkey'] at hkq
            have hpk : mkeyOf groups p = some k := hpure_head p hpn
            rw [hpk] at hkp
            cases hkp
            cases hkq
            exact absurd hk' hkfresh
          · rw [hpe, hqe]
      have hnd' : (rest.map Prod.fst).Nodup := (List.nodup_cons.mp (by simpa using hnd)).2
      have hkhd : k ∉ rest.map Prod.fst := (List.nodup_cons.mp (by simpa using hnd)).1
      have hfresh' : ∀ k' ∈ rest.map Prod.fst, k' ∉ doneKs ++ [k] := by
        intro k' hk' hmem
        rcases List.mem_append.mp hmem with hm1 | hm1
        · exact hfresh k' (by simp [hk']) hm1
        · simp only [List.mem_singleton] at hm1
          subst hm1
          exact hkhd hk'
      have hpure' : ∀ kps ∈ rest, ∀ q ∈ kps.2, mkeyOf groups q = some kps.1 :=
        fun kps h => hpure kps (List.mem_cons_of_mem _ h)
      obtain ⟨hdk', hsk'⟩ := ih _ (doneKs ++ [k]) hnd' hfresh' hpure' hdk1 hsk1 st' hfold
      refine ⟨?_, hsk'⟩
      intro i p hpm
      obtain ⟨k', hk', hkey'⟩ := hdk' i p hpm
      refine ⟨k', ?_, hkey'⟩
      simp only [List.map_cons, List.append_assoc, List.singleton_append] at hk' ⊢
      exact hk'

theorem phase2_atom (groups : List CompoundGroup) :
    ∀ (std : List POI) (st : AllocState),
    (∀ p ∈ std, mkeyOf groups p = none) →
    sameKeySameDay groups st →
    ∀ st', foldE placeOne st std = Except.ok st' → sameKeySameDay groups st' := by
  intro std
  induction std with
  | nil =>
    intro st _ hsk st' hfold
    simp only [foldE, Except.ok.injEq] at hfold
    subst hfold
    exact hsk
  | cons p rest ih =>
    intro st hnone hsk st' hfold
    simp only [foldE] at hfold
    cases hmi : minIdx st.day_counts with
    | none =>
      rw [show placeOne st p = Except.error "min() arg is an empty sequence" from by
        simp [placeOne, hmi]] at hfold
      cases hfold
    | some i0 =>
      have hpg : placeOne st p =
          Except.ok ⟨st.days.set i0 (st.days.getD i0 [] ++ [p]),
                     st.day_counts.set i0 (st.day_counts.getD i0 0 + 1)⟩ := by
        simp [placeOne, hmi]
      rw [hpg] at hfold
      have hsk1 : sameKeySameDay groups
          ⟨st.days.set i0 (st.days.getD i0 [] ++ [p]),
            st.day_counts.set i0 (st.day_counts.getD i0 0 + 1)⟩ := by
        intro i j x y k0 hxi hyj hkx hky
        rcases mem_getD_set st.days i0 i [p] x hxi with hxo | ⟨hxe, hxn⟩
        · rcases mem_getD_set st.days i0 j [p] y hyj with hyo | ⟨hye, hyn⟩
          · exact hsk i j x y k0 hxo hyo hkx hky
          · simp only [List.mem_singleton] at hyn
            subst hyn
            rw [hnone y (List.mem_cons_self _ _)] at hky
            cases hky
        · simp only [List.mem_singleton] at hxn
          subst hxn
          rw [hnone x (List.mem_cons_self _ _)] at hkx
          cases hkx
      exact ih _ (fun q hq => hnone q (List.mem_cons_of_mem _ hq)) hsk1 st' hfold

/-- C1 (amended): any two POIs of the allocator's output that
`find_compound_group` files under must-groups with the same group name land
on the same day index.  (The frozen claim, which speaks of raw membership
in a must-group's attraction list rather than of the group the matcher
assigns, fails — see the counterexample.) -/
theorem c1_group_atomicity_amended (groups : List CompoundGroup) (pois : List POI)
    (n q : Nat) (days : List (List POI))
    (hok : split_pois_into_days groups pois n q = Except.ok days)
    (i j : Nat) (p p' : POI) (g g' : CompoundGroup)
    (hp : p ∈ days.getD i []) (hp' : p' ∈ days.getD j [])
    (hfg : find_compound_group p.name groups = some g) (hmg : g.must_group = true)
    (hfg' : find_compound_group p'.name groups = some g') (hmg' : g'.must_group = true)
    (hnm : g.name = g'.name) : i = j := by
  simp only [split_pois_into_days] at hok
  cases h1 : foldE (fun st entry => placeGroup st entry.2)
      ⟨List.replicate n [], List.replicate n 0⟩
      (group_pois_by_compound groups pois).grouped with
  | error e => simp [h1] at hok
  | ok st1 =>
    simp only [h1] at hok
    cases h2 : foldE placeOne st1 (group_pois_by_compound groups pois).standalone with
    | error e => simp [h2] at hok
    | ok st2 =>
      simp only [h2, Except.ok.injEq] at hok
      subst hok
      obtain ⟨hnd, hpure, hstd⟩ := gpc_inv groups pois ⟨[], []⟩
        ⟨by simp, by simp, by simp⟩
      have hgetDrep : ∀ m, (List.replicate n ([] : List POI)).getD m [] = [] := by
        intro m
        rw [List.getD_eq_getElem?_getD, List.getElem?_replicate]
        split <;> rfl
      have hdk0 : daysKeyed groups []
          ⟨List.replicate n [], List.replicate n 0⟩ := by
        intro m x hx
        rw [hgetDrep m] at hx
        cases hx
      have hsk0 : sameKeySameDay groups
          ⟨List.replicate n [], List.replicate n 0⟩ := by
        intro a b x y k0 hx
        rw [hgetDrep a] at hx
        cases hx
      obtain ⟨hdk1, hsk1⟩ := phase1_atom groups _ _ [] hnd (by simp) hpure hdk0 hsk0 st1 h1
      have hsk2 := phase2_atom groups _ st1 hstd hsk1 st2 h2
      exact hsk2 i j p p' g.name hp hp' (by simp [mkeyOf, hfg, hmg])
        (by simp [mkeyOf, hfg', hmg', ← hnm])

/-- First overlapping must-group of the C1 counterexample. -/
def ovG1 : CompoundGroup := ⟨"g1", none, ["A", "B"], [], true, 2, ""⟩

/-- Second overlapping must-group of the C1 counterexample; it shares
member "B" with `ovG1`. -/
def ovG2 : CompoundGroup := ⟨"g2", none, ["B", "C"], [], true, 2, ""⟩

/-- C1 as frozen is false: with overlapping must-groups, POI "B" — a member
of `ovG2` — is filed with `ovG1` (the first match) and placed on day 0,
while `ovG2`'s member "C" is placed on day 1, so `ovG2`'s members appearing
in the output occupy two different day indices. -/
theorem c1_counterexample :
    split_pois_into_days [ovG1, ovG2] [⟨"A", 0⟩, ⟨"B", 1⟩, ⟨"C", 2⟩] 2 5 =
      Except.ok [[⟨"A", 0⟩, ⟨"B", 1⟩], [⟨"C", 2⟩]] ∧
    ovG2.must_group = true ∧
    (⟨"B", 1⟩ : POI).name ∈ ovG2.attractions ∧
    (⟨"C", 2⟩ : POI).name ∈ ovG2.attractions ∧
    (⟨"B", 1⟩ : POI) ∈ ([[⟨"A", 0⟩, ⟨"B", 1⟩], [⟨"C", 2⟩]] : List (List POI)).getD 0 [] ∧
    (⟨"C", 2⟩ : POI) ∈ ([[⟨"A", 0⟩, ⟨"B", 1⟩], [⟨"C", 2⟩]] : List (List POI)).getD 1 [] ∧
    (0 : Nat) ≠ 1 :=
  ⟨rfl, rfl, by decide, by decide, by decide, by decide, by decide⟩

/-- Witness for the amended C1 at a concrete input. -/
theorem c1_atomicity_witness :
    split_pois_into_days [⟨"G", none, ["A", "B"], [], true, 2, ""⟩]
      [⟨"A", 0⟩, ⟨"B", 1⟩] 2 5 = Except.ok [[⟨"A", 0⟩, ⟨"B", 1⟩], []] ∧ (0 : Nat) = 0 :=
  ⟨rfl, c1_group_atomicity_amended [⟨"G", none, ["A", "B"], [], true, 2, ""⟩]
    [⟨"A", 0⟩, ⟨"B", 1⟩] 2 5 [[⟨"A", 0⟩, ⟨"B", 1⟩], []] rfl 0 0 ⟨"A", 0⟩ ⟨"B", 1⟩
    ⟨"G", none, ["A", "B"], [], true, 2, ""⟩ ⟨"G", none, ["A", "B"], [], true, 2, ""⟩
    (by decide) (by decide) rfl rfl rfl rfl rfl⟩

/-! ## Integrity completion machinery (C5, C9, C10) -/

/-- The names carried by a POI list, in order. -/
def pNames (l : List POI) : List String := l.map POI.name

theorem pNames_append (a b : List POI) : pNames (a ++ b) = pNames a ++ pNames b := by
  simp [pNames]

theorem any_name_eq_true (sel : List POI) (a : String) :
    (sel.any fun p => p.name == a) = true ↔ a ∈ pNames sel := by
  simp only [List.any_eq_true, beq_iff_eq, pNames, List.mem_map]

/-- Specification of the POIs a completion pass appends: pairwise distinct
fresh names drawn from `attrs`, each appended POI being the first available
POI bearing its name. -/
def addsOk (avail sel t : List POI) (attrs : List String) : Prop :=
  (pNames t).Nodup ∧
  ∀ x ∈ t, x.name ∉ pNames sel ∧ x.name ∈ attrs ∧
    avail.find? (fun p => p.name == x.name) = some x

theorem completeGroup_cons (avail : List POI) (a : String) (attrs : List String)
    (sel : List POI) :
    completeGroup avail (a :: attrs) sel =
      completeGroup avail attrs
        (if sel.any (fun p => p.name == a) then sel
         else
           match avail.find? (fun p => p.name == a) with
           | some poi => sel ++ [poi]
           | none => sel) := rfl

/-- The completion pass only appends, and the appended POIs satisfy
`addsOk`. -/
theorem completeGroup_spec (avail : List POI) : ∀ (attrs : List String) (sel : List POI),
    ∃ t, completeGroup avail attrs sel = sel ++ t ∧ addsOk avail sel t attrs := by
  intro attrs
  induction attrs with
  | nil =>
    intro sel
    exact ⟨[], by simp [completeGroup], by simp [addsOk, pNames]⟩
  | cons a rest ih =>
    intro sel
    rw [completeGroup_cons]
    by_cases hany : (sel.any fun p => p.name == a) = true
    · rw [if_pos hany]
      obtain ⟨t, heq, hnd, hmem⟩ := ih sel
      refine ⟨t, heq, hnd, ?_⟩
      intro x hx
      obtain ⟨h1, h2, h3⟩ := hmem x hx
      exact ⟨h1, List.mem_cons_of_mem _ h2, h3⟩
    · rw [if_neg hany]
      cases hfind : avail.find? (fun p => p.name == a) with
      | none =>
        obtain ⟨t, heq, hnd, hmem⟩ := ih sel
        refine ⟨t, heq, hnd, ?_⟩
        intro x hx
        obtain ⟨h1, h2, h3⟩ := hmem x hx
        exact ⟨h1, List.mem_cons_of_mem _ h2, h3⟩
      | some poi =>
        have hpn : poi.name = a := by
          have := List.find?_some hfind
          simpa using this
        obtain ⟨t, heq, hnd, hmem⟩ := ih (sel ++ [poi])
        refine ⟨poi :: t, ?_, ?_, ?_⟩
        · rw [heq, List.append_assoc, List.singleton_append]
        · simp only [pNames, List.map_cons, List.nodup_cons]
          refine ⟨?_, hnd⟩
          intro hc
          obtain ⟨x, hx, hxn⟩ := List.mem_map.mp hc
          obtain ⟨h1, _, _⟩ := hmem x hx
          rw [pNames_append] at h1
          exact h1 (List.mem_append.mpr (Or.inr (by simp [pNames, hxn])))
        · intro x hx
          rcases List.mem_cons.mp hx with hx1 | hx1
          · subst hx1
            refine ⟨?_, by simp [hpn], by rw [hpn]; exact hfind⟩
            rw [hpn]
            intro hc
            exact hany ((any_name_eq_true sel a).mpr hc)
          · obtain ⟨h1, h2, h3⟩ := hmem x hx1
            rw [pNames_append] at h1
            exact ⟨fun hc => h1 (List.mem_append.mpr (Or.inl hc)),
              List.mem_cons_of_mem _ h2, h3⟩

/-- After a completion pass over `attrs`, every attraction name is either
present among the selected names or absent from the available pool. -/
theorem completeGroup_post (avail : List POI) : ∀ (attrs : List String) (sel : List POI),
    ∀ a ∈ attrs, a ∈ pNames (completeGroup avail attrs sel) ∨
      avail.find? (fun p => p.name == a) = none := by
  intro attrs
  induction attrs with
  | nil =>
    intro sel a ha
    cases ha
  | cons a0 rest ih =>
    intro sel a ha
    rw [completeGroup_cons]
    have hsub : ∀ (s : List POI) (nm : String), nm ∈ pNames s →
        nm ∈ pNames (completeGroup avail rest s) := by
      intro s nm hnm
      obtain ⟨t, heq, _⟩ := completeGroup_spec avail rest s
      rw [heq, pNames_append]
      exact List.mem_append.mpr (Or.inl hnm)
    rcases List.mem_cons.mp ha with ha0 | harest
    · subst ha0
      by_cases hany : (sel.any fun p => p.name == a) = true
      · rw [if_pos hany]
        exact Or.inl (hsub sel a ((any_name_eq_true sel a).mp hany))
      · rw [if_neg hany]
        cases hfind : avail.find? (fun p => p.name == a) with
        | none => exact Or.inr rfl
        | some poi =>
          have hpn : poi.name = a := by
            have := List.find?_some hfind
            simpa using this
          refine Or.inl (hsub (sel ++ [poi]) a ?_)
          rw [pNames_append]
          exact List.mem_append.mpr (Or.inr (by simp [pNames, hpn]))
    · exact ih _ a harest

/-- A completion pass over attraction names that are all already selected
or all unavailable changes nothing. -/
theorem completeGroup_noop (avail : List POI) : ∀ (attrs : List String) (sel : List POI),
    (∀ a ∈ attrs, a ∈ pNames sel ∨ avail.find? (fun p => p.name == a) = none) →
    completeGroup avail attrs sel = sel := by
  intro attrs
  induction attrs with
  | nil =>
    intro sel _
    rfl
  | cons a0 rest ih =>
    intro sel h
    rw [completeGroup_cons]
    rcases h a0 (List.mem_cons_self _ _) with hin | hnone
    · rw [if_pos ((any_name_eq_true sel a0).mpr hin)]
      exact ih sel (fun a ha => h a (List.mem_cons_of_mem _ ha))
    · by_cases hany : (sel.any fun p => p.name == a0) = true
      · rw [if_pos hany]
        exact ih sel (fun a ha => h a (List.mem_cons_of_mem _ ha))
      · rw [if_neg hany, hnone]
        exact ih sel (fun a ha => h a (List.mem_cons_of_mem _ ha))

/-- The additions made by the whole integrity pass: fresh, pairwise
distinct names, each belonging to some must-group of `groups`, each added
POI being the first available POI with its name. -/
def ensureAdds (avail sel t : List POI) (groups : List CompoundGroup) : Prop :=
  (pNames t).Nodup ∧
  ∀ x ∈ t, x.name ∉ pNames sel ∧
    (∃ g ∈ groups, g.must_group = true ∧ x.name ∈ g.attractions) ∧
    avail.find? (fun p => p.name == x.name) = some x

theorem ensure_cons (sel avail : List POI) (g : CompoundGroup)
    (gs : List CompoundGroup) :
    ensure_compound_integrity sel avail (g :: gs) =
      ensure_compound_integrity (integrityStep avail sel g) avail gs := rfl

theorem integrityStep_not_must (avail sel : List POI) (g : CompoundGroup)
    (hm : g.must_group = false) : integrityStep avail sel g = sel := by
  simp [integrityStep, hm]

theorem integrityStep_not_triggered (avail sel : List POI) (g : CompoundGroup)
    (htr : triggered g sel = false) : integrityStep avail sel g = sel := by
  cases hm : g.must_group <;> simp [integrityStep, hm, htr]

theorem integrityStep_must_triggered (avail sel : List POI) (g : CompoundGroup)
    (hm : g.must_group = true) (htr : triggered g sel = true) :
    integrityStep avail sel g = completeGroup avail g.attractions sel := by
  simp [integrityStep, hm, htr]

theorem integrityStep_spec (avail sel : List POI) (g : CompoundGroup) :
    ∃ t, integrityStep avail sel g = sel ++ t ∧
      (pNames t).Nodup ∧
      ∀ x ∈ t, x.name ∉ pNames sel ∧ (g.must_group = true ∧ x.name ∈ g.attractions) ∧
        avail.find? (fun p => p.name == x.name) = some x := by
  cases hm : g.must_group with
  | false =>
    exact ⟨[], by simp [integrityStep_not_must avail sel g hm], by simp [pNames], by simp⟩
  | true =>
    cases htr : triggered g sel with
    | false =>
      exact ⟨[], by simp [integrityStep_not_triggered avail sel g htr],
        by simp [pNames], by simp⟩
    | true =>
      rw [integrityStep_must_triggered avail sel g hm htr]
      obtain ⟨t, heq, hnd, hmem⟩ := completeGroup_spec avail g.attractions sel
      refine ⟨t, heq, hnd, ?_⟩
      intro x hx
      obtain ⟨h1, h2, h3⟩ := hmem x hx
      exact ⟨h1, ⟨rfl, h2⟩, h3⟩

/-- The whole integrity pass only appends, and its additions satisfy
`ensureAdds`. -/
theorem ensure_spec (avail : List POI) : ∀ (groups : List CompoundGroup) (sel : List POI),
    ∃ t, ensure_compound_integrity sel avail groups = sel ++ t ∧
      ensureAdds avail sel t groups := by
  intro groups
  induction groups with
  | nil =>
    intro sel
    exact ⟨[], by simp [ensure_compound_integrity], by simp [ensureAdds, pNames]⟩
  | cons g gs ih =>
    intro sel
    rw [ensure_cons]
    obtain ⟨t1, heq1, hnd1, hmem1⟩ := integrityStep_spec avail sel g
    rw [heq1]
    obtain ⟨t2, heq2, hnd2, hmem2⟩ := ih (sel ++ t1)
    rw [heq2, List.append_assoc]
    refine ⟨t1 ++ t2, rfl, ?_, ?_⟩
    · rw [pNames_append, List.nodup_append]
      refine ⟨hnd1, hnd2, ?_⟩
      intro a ha1 ha2
      obtain ⟨x, hx, hxn⟩ := List.mem_map.mp ha2
      obtain ⟨h1, _, _⟩ := hmem2 x hx
      rw [pNames_append] at h1
      exact h1 (List.mem_append.mpr (Or.inr (hxn ▸ ha1)))
    · intro x hx
      rcases List.mem_append.mp hx with hx1 | hx2
      · obtain ⟨h1, ⟨hgm, hga⟩, h3⟩ := hmem1 x hx1
        exact ⟨h1, ⟨g, List.mem_cons_self _ _, hgm, hga⟩, h3⟩
      · obtain ⟨h1, ⟨g', hg', hgm', hga'⟩, h3⟩ := hmem2 x hx2
        rw [pNames_append] at h1
        exact ⟨fun hc => h1 (List.mem_append.mpr (Or.inl hc)),
          ⟨g', List.mem_cons_of_mem _ hg', hgm', hga'⟩, h3⟩

/-- C9: the integrity pass returns the selected list as an unchanged front
segment, in its original order, with any added POIs appended after it. -/
theorem c9_selected_preserved (groups : List CompoundGroup)
    (selected available : List POI) :
    ∃ t, ensure_compound_integrity selected available groups = selected ++ t := by
  obtain ⟨t, heq, _⟩ := ensure_spec available groups selected
  exact ⟨t, heq⟩

/-- C10: the integrity pass appends at most one POI per distinct missing
member name — always the first POI of the available pool with that name —
and never appends a name that is already selected, even when the available
pool repeats names or a group's member list repeats a name. -/
theorem c10_no_duplicate_additions (groups : List CompoundGroup)
    (selected available : List POI) :
    ∃ t, ensure_compound_integrity selected available groups = selected ++ t ∧
      (pNames t).Nodup ∧
      ∀ x ∈ t, x.name ∉ pNames selected ∧
        available.find? (fun p => p.name == x.name) = some x := by
  obtain ⟨t, heq, hnd, hmem⟩ := ensure_spec available groups selected
  exact ⟨t, heq, hnd, fun x hx => ⟨(hmem x hx).1, (hmem x hx).2.2⟩⟩

theorem triggered_append (g : CompoundGroup) (sel t : List POI) :
    triggered g (sel ++ t) = (triggered g sel || triggered g t) := by
  simp [triggered, List.any_append]

/-- Distinct must-group entries have pairwise disjoint member lists. -/
def mustDisjoint (groups : List CompoundGroup) : Prop :=
  (groups.filter (fun g => g.must_group)).Pairwise
    (fun g g' => ∀ a ∈ g.attractions, a ∉ g'.attractions)

theorem mustDisjoint_cons_false {g : CompoundGroup} {gs : List CompoundGroup}
    (hm : g.must_group = false) : mustDisjoint (g :: gs) ↔ mustDisjoint gs := by
  unfold mustDisjoint
  rw [List.filter_cons, if_neg (by simp [hm])]

theorem mustDisjoint_cons_true {g : CompoundGroup} {gs : List CompoundGroup}
    (hm : g.must_group = true) (h : mustDisjoint (g :: gs)) :
    (∀ g' ∈ gs.filter (fun g => g.must_group),
      ∀ a ∈ g.attractions, a ∉ g'.attractions) ∧ mustDisjoint gs := by
  unfold mustDisjoint at h
  rw [List.filter_cons, if_pos (by simp [hm])] at h
  exact ⟨(List.pairwise_cons.mp h).1, (List.pairwise_cons.mp h).2⟩

/-- C5 (amended): the integrity pass is idempotent whenever distinct
must-group entries have pairwise disjoint member lists.  (The frozen
unconditional claim fails when must-groups overlap — see the
counterexample.) -/
theorem c5_idempotent_disjoint (available : List POI) :
    ∀ (groups : List CompoundGroup) (selected : List POI), mustDisjoint groups →
    ensure_compound_integrity
        (ensure_compound_integrity selected available groups) available groups =
      ensure_compound_integrity selected available groups := by
  intro groups
  induction groups with
  | nil =>
    intro sel _
    rfl
  | cons g gs ih =>
    intro sel hdis
    rw [ensure_cons, ensure_cons]
    cases hm : g.must_group with
    | false =>
      rw [integrityStep_not_must available sel g hm,
        integrityStep_not_must available _ g hm]
      exact ih sel ((mustDisjoint_cons_false hm).mp hdis)
    | true =>
      obtain ⟨hhead, htail⟩ := mustDisjoint_cons_true hm hdis
      cases htr : triggered g sel with
      | true =>
        rw [integrityStep_must_triggered available sel g hm htr]
        obtain ⟨t2, heqT, hndT, hmemT⟩ :=
          ensure_spec available gs (completeGroup available g.attractions sel)
        have htrT : triggered g (ensure_compound_integrity
            (completeGroup available g.attractions sel) available gs) = true := by
          rw [heqT]
          obtain ⟨t1, heq1, _⟩ := completeGroup_spec available g.attractions sel
          rw [heq1, List.append_assoc, triggered_append]
          simp [htr]
        have hnoop : integrityStep available (ensure_compound_integrity
            (completeGroup available g.attractions sel) available gs) g =
            ensure_compound_integrity
              (completeGroup available g.attractions sel) available gs := by
          rw [integrityStep_must_triggered available _ g hm htrT]
          apply completeGroup_noop
          intro a ha
          rcases completeGroup_post available g.attractions sel a ha with hin | hnone
          · left
            rw [heqT, pNames_append]
            exact List.mem_append.mpr (Or.inl hin)
          · right
            exact hnone
        rw [hnoop]
        exact ih _ htail
      | false =>
        rw [integrityStep_not_triggered available sel g htr]
        obtain ⟨t2, heqT, hndT, hmemT⟩ := ensure_spec available gs sel
        have htrT : triggered g
            (ensure_compound_integrity sel available gs) = false := by
          rw [heqT, triggered_append, htr]
          have h2 : triggered g t2 = false := by
            cases hc : triggered g t2 with
            | false => rfl
            | true =>
              exfalso
              have hex : ∃ x ∈ t2, x.name ∈ g.attractions := by
                simpa [triggered, List.any_eq_true] using hc
              obtain ⟨x, hx, hxa⟩ := hex
              obtain ⟨_, ⟨g', hg', hgm', hxg'⟩, _⟩ := hmemT x hx
              exact hhead g' (List.mem_filter.mpr ⟨hg', by simp [hgm']⟩) x.name hxa hxg'
          rw [h2]
          rfl
        rw [integrityStep_not_triggered available _ g htrT]
        exact ih sel htail

/-- First overlapping must-group of the C5 counterexample. -/
def olG2 : CompoundGroup := ⟨"g2", none, ["A", "B"], [], true, 2, ""⟩

/-- Second overlapping must-group of the C5 counterexample; it shares
member "A" with `olG2` and is declared after it. -/
def olG1 : CompoundGroup := ⟨"g1", none, ["A", "C"], [], true, 2, ""⟩

/-- C5 as frozen is false: with the overlapping must-groups `olG2, olG1`,
selected `[C]` and available `[A, B]`, the first pass adds only `A` (for
`olG1`), and the second pass — now seeing `A`, a member of the earlier
group `olG2` — additionally adds `B`. -/
theorem c5_counterexample :
    ensure_compound_integrity
        (ensure_compound_integrity [⟨"C", 0⟩] [⟨"A", 1⟩, ⟨"B", 2⟩] [olG2, olG1])
        [⟨"A", 1⟩, ⟨"B", 2⟩] [olG2, olG1] ≠
      ensure_compound_integrity [⟨"C", 0⟩] [⟨"A", 1⟩, ⟨"B", 2⟩] [olG2, olG1] := by
  decide

/-- Witness for the amended C5 at a concrete input. -/
theorem c5_idempotent_witness :
    mustDisjoint [⟨"G", none, ["A", "B"], [], true, 2, ""⟩] ∧
    ensure_compound_integrity
        (ensure_compound_integrity [⟨"A", 0⟩] [⟨"B", 1⟩]
          [⟨"G", none, ["A", "B"], [], true, 2, ""⟩])
        [⟨"B", 1⟩] [⟨"G", none, ["A", "B"], [], true, 2, ""⟩] =
      ensure_compound_integrity [⟨"A", 0⟩] [⟨"B", 1⟩]
        [⟨"G", none, ["A", "B"], [], true, 2, ""⟩] :=
  ⟨by simp [mustDisjoint], c5_idempotent_disjoint [⟨"B", 1⟩]
    [⟨"G", none, ["A", "B"], [], true, 2, ""⟩] [⟨"A", 0⟩] (by simp [mustDisjoint])⟩

/-! ## Claim C8: excluded-attractions noninterference -/

/-- Erase the `excluded` field, the only field `find_compound_group` is
claimed not to consult. -/
def eraseExcluded (g : CompoundGroup) : CompoundGroup := { g with excluded := [] }

/-- The demonstration group for C8: "Generalife Gardens" is listed as
excluded yet matches by substring containment. -/
def exDemo : CompoundGroup :=
  ⟨"Alhambra Complex", none, ["Generalife"], ["Generalife Gardens"], true, 2, ""⟩

/-- C8: matching never consults the `excluded` lists — two configurations
equal up to their `excluded` fields produce the same match (up to the
returned group's own `excluded` field); consequently a POI listed in a
group's `excluded_attractions` is still matched to that group via
substring containment, as `exDemo` shows. -/
theorem c8_excluded_noninterference :
    (∀ (nm : String) (gs1 gs2 : List CompoundGroup),
      gs1.map eraseExcluded = gs2.map eraseExcluded →
      (find_compound_group nm gs1).map eraseExcluded =
        (find_compound_group nm gs2).map eraseExcluded) ∧
    (find_compound_group "Generalife Gardens" [exDemo] = some exDemo ∧
      "Generalife Gardens" ∈ exDemo.excluded) := by
  constructor
  · intro nm gs1
    induction gs1 with
    | nil =>
      intro gs2 h
      have : gs2 = [] := by
        cases gs2 with
        | nil => rfl
        | cons a t => simp at h
      subst this
      rfl
    | cons g1 rest1 ih =>
      intro gs2 h
      cases gs2 with
      | nil => simp at h
      | cons g2 rest2 =>
        simp only [List.map_cons, List.cons.injEq] at h
        obtain ⟨hg, hrest⟩ := h
        have hattr : g1.attractions = g2.attractions := by
          have := congrArg CompoundGroup.attractions hg
          simpa [eraseExcluded] using this
        simp only [find_compound_group, ← hattr]
        cases h1 : g1.attractions.contains nm with
        | true => simp [h1, hg]
        | false =>
          cases h2 : g1.attractions.any (fun a => pySubstr a nm || pySubstr nm a) with
          | true => simp [h1, h2, hg]
          | false =>
            simp only [h1, h2, Bool.false_eq_true, if_neg, not_false_eq_true]
            exact ih rest2 hrest
  · exact ⟨rfl, by decide⟩

/-- Witness for C8 at two concrete configurations differing only in an
`excluded` list. -/
theorem c8_excluded_witness :
    (find_compound_group "Generalife Gardens" [exDemo]).map eraseExcluded =
      (find_compound_group "Generalife Gardens"
        [⟨"Alhambra Complex", none, ["Generalife"], [], true, 2, ""⟩]).map eraseExcluded :=
  c8_excluded_noninterference.1 "Generalife Gardens" [exDemo]
    [⟨"Alhambra Complex", none, ["Generalife"], [], true, 2, ""⟩] rfl

end AndalusiaTrip
